import Mathlib

/-!
# Trading Journal — analytics engine, shallow embedding

This file embeds the analytics/aggregation engine of the trading-journal
repository (`journal/models.py` and
`journal/management/commands/analytics.py`, mirrored by `run_analytics.py`)
and proves the spec's claims about it.

Modelling conventions:
* `DecimalField` values (prices, quantities, P&L) are embedded as `ℚ`
  (exact decimal arithmetic embeds into the rationals).
* `DateTimeField` values are embedded as `ℕ` timestamps; only their
  presence/absence and ordering matter to the analytics code.
* A nullable column is an `Option`.
* Fields inert to the analytics engine (`user` scoping — the engine is
  handed one user's trade list —, `symbol`, `notes`, `description`) are
  omitted from the records.
* A report line that the code prints only under a guard (e.g. the average
  closed P&L, printed only when `closed_count > 0`) is an `Option` field of
  the report record: `none` when the line is omitted.
-/

/-- `journal.models.Mistake`: a predefined mistake tag with a unique name
and a category code (one of the fixed `choices` enumeration). -/
structure Mistake where
  name : String
  category : String
  deriving DecidableEq, Repr

/-- `journal.models.Trade`: one trade row.  `side` is the `'buy'`/`'sell'`
choice field; exit price and exit date are nullable; `mistakes` is the
many-to-many tag set. -/
structure Trade where
  side : String
  quantity : ℚ
  entry_price : ℚ
  entry_date : ℕ
  exit_price : Option ℚ
  exit_date : Option ℕ
  mistakes : List Mistake
  deriving DecidableEq, Repr

namespace Trade

/-- The `Trade.pnl` property: `None` when `exit_price` is null, otherwise
`(exit − entry) × quantity` for `side == 'buy'` and
`(entry − exit) × quantity` for the other (`'sell'`) side. -/
def pnl (t : Trade) : Option ℚ :=
  match t.exit_price with
  | none => none
  | some ep =>
      if t.side = "buy" then some ((ep - t.entry_price) * t.quantity)
      else some ((t.entry_price - ep) * t.quantity)

/-- The `Trade.is_closed` property: both exit fields present. -/
def is_closed (t : Trade) : Bool :=
  t.exit_price.isSome && t.exit_date.isSome

end Trade

/-- The model invariant enforced by `Trade.clean` ("Both exit price and exit
date must be provided together, or both left empty") and stated in the spec's
data model: a trade is fully open or fully closed. -/
def ExitConsistent (t : Trade) : Prop :=
  t.exit_price.isSome ↔ t.exit_date.isSome

instance (t : Trade) : Decidable (ExitConsistent t) := by
  unfold ExitConsistent; infer_instance

/-- The Python idiom `(trade.pnl or 0)`: pnl with `None` (and `0`, which is
falsy — the value is unchanged) replaced by `0`. -/
def pnlOr0 (t : Trade) : ℚ :=
  (t.pnl).getD 0

/-- The closed-trades filter
`trades.exclude(exit_price__isnull=True).exclude(exit_date__isnull=True)`:
keep trades with both exit fields non-null. -/
def isClosedTrade (t : Trade) : Bool :=
  t.exit_price.isSome && t.exit_date.isSome

/-- The open-trades filter
`trades.filter(Q(exit_price__isnull=True) | Q(exit_date__isnull=True))`:
keep trades with either exit field null. -/
def isOpenTrade (t : Trade) : Bool :=
  t.exit_price.isNone || t.exit_date.isNone

/-- Output of `rule_followed_analysis`.  `avg_closed_pnl` and
`compliance_rate` are the two guarded lines: the code computes and prints
them only when `closed_count > 0` (resp. `closed_count + open_count > 0`),
so they are `none` when the guard fails. -/
structure RuleReport where
  closed_count : ℕ
  closed_pnl : ℚ
  open_count : ℕ
  open_pnl : ℚ
  avg_closed_pnl : Option ℚ
  compliance_rate : Option ℚ
  deriving Repr

/-- `Command.rule_followed_analysis`: partition one user's trades into
closed ("rule followed") and open ("rule broken"), sum `(pnl or 0)` over
each side, and derive the guarded average and compliance rate. -/
def rule_followed_analysis (trades : List Trade) : RuleReport :=
  let closed_trades := trades.filter isClosedTrade
  let closed_count := closed_trades.length
  let closed_pnl := (closed_trades.map pnlOr0).sum
  let open_trades := trades.filter isOpenTrade
  let open_count := open_trades.length
  let open_pnl := (open_trades.map pnlOr0).sum
  { closed_count := closed_count
    closed_pnl := closed_pnl
    open_count := open_count
    open_pnl := open_pnl
    avg_closed_pnl :=
      if 0 < closed_count then some (closed_pnl / closed_count) else none
    compliance_rate :=
      if 0 < closed_count + open_count then
        some (((closed_count : ℚ) / ((closed_count : ℚ) + (open_count : ℚ))) * 100)
      else none }

/-! ## Emotion vs win rate (`emotion_win_rate_analysis`) -/

/-- The fixed `emotional_mistakes` name list from
`emotion_win_rate_analysis`. -/
def emotional_mistakes : List String :=
  ["FOMO trading", "Revenge trading", "Overconfidence",
   "Hesitation", "Confirmation bias"]

/-- `Mistake.objects.filter(name__in=emotional_mistakes)`: the catalog
mistakes whose name is in the fixed list. -/
def emotion_mistake_objects (catalog : List Mistake) : List Mistake :=
  catalog.filter (fun m => emotional_mistakes.contains m.name)

/-- `trades.filter(mistakes__in=emotion_mistake_objects)`: the trade carries
at least one tag among the emotional mistake objects. -/
def isEmotionalTrade (catalog : List Mistake) (t : Trade) : Bool :=
  t.mistakes.any (fun m => (emotion_mistake_objects catalog).contains m)

/-- The inner `calculate_win_rate` helper: restrict to closed trades, return
`(0, 0)` when none, otherwise `(wins, closed_count)` where a win is
`Q(side='buy', exit_price__gt=entry_price) | Q(side='sell',
exit_price__lt=entry_price)`. -/
def isWinTrade (t : Trade) : Bool :=
  match t.exit_price with
  | none => false
  | some ep =>
      (t.side = "buy" && t.entry_price < ep) ||
      (t.side = "sell" && ep < t.entry_price)

/-- `calculate_win_rate`: `(wins, closed_count)` for a trade sub-collection;
`(0, 0)` when it has no closed trades. -/
def calculate_win_rate (qs : List Trade) : ℕ × ℕ :=
  let closed := qs.filter isClosedTrade
  if closed.length = 0 then (0, 0)
  else ((closed.filter isWinTrade).length, closed.length)

/-- The win-rate expression `(wins / total * 100) if total > 0 else 0`. -/
def winRatePct (wins total : ℕ) : ℚ :=
  if 0 < total then (wins : ℚ) / (total : ℚ) * 100 else 0

/-- Output of `emotion_win_rate_analysis`.  `rate_diff` is printed only when
both partitions have a closed trade, hence the `Option`. -/
structure EmotionReport where
  emotional_count : ℕ
  non_emotional_count : ℕ
  emotion_wins : ℕ
  emotion_total : ℕ
  non_emotion_wins : ℕ
  non_emotion_total : ℕ
  emotion_win_rate : ℚ
  non_emotion_win_rate : ℚ
  rate_diff : Option ℚ
  deriving Repr

/-- `Command.emotion_win_rate_analysis`: split trades into those carrying an
emotional-mistake tag and those carrying none, and compute each side's win
rate over its closed trades. -/
def emotion_win_rate_analysis (trades : List Trade) (catalog : List Mistake) :
    EmotionReport :=
  let emotional_trades := trades.filter (isEmotionalTrade catalog)
  let non_emotional_trades := trades.filter (fun t => !isEmotionalTrade catalog t)
  let ew := (calculate_win_rate emotional_trades).1
  let et := (calculate_win_rate emotional_trades).2
  let nw := (calculate_win_rate non_emotional_trades).1
  let nt := (calculate_win_rate non_emotional_trades).2
  { emotional_count := emotional_trades.length
    non_emotional_count := non_emotional_trades.length
    emotion_wins := ew
    emotion_total := et
    non_emotion_wins := nw
    non_emotion_total := nt
    emotion_win_rate := winRatePct ew et
    non_emotion_win_rate := winRatePct nw nt
    rate_diff :=
      if 0 < et ∧ 0 < nt then some (winRatePct ew et - winRatePct nw nt)
      else none }

/-! ## Mistake frequency (`mistake_frequency_analysis`) -/

/-- `Mistake.get_category_display()`: the static map from category code to
display label, from the `choices` of `Mistake.category` in
`journal/models.py` (Django returns the raw value for a code outside the
enumeration). -/
def get_category_display (c : String) : String :=
  if c = "entry" then "Entry Timing"
  else if c = "exit" then "Exit Timing"
  else if c = "position" then "Position Sizing"
  else if c = "risk" then "Risk Management"
  else if c = "psychology" then "Psychology/Emotion"
  else if c = "analysis" then "Analysis/Research"
  else if c = "execution" then "Trade Execution"
  else if c = "other" then "Other"
  else c

/-- One entry of `mistake_stats`. -/
structure MistakeStat where
  name : String
  category : String
  frequency : ℕ
  avg_pnl : ℚ
  total_pnl : ℚ
  deriving DecidableEq, Repr

/-- The dict built for one mistake with `trade_count > 0`: frequency, total
P&L over its closed tagged trades, and the guarded average. -/
def mkMistakeStat (trades : List Trade) (m : Mistake) : MistakeStat :=
  let mistake_trades := trades.filter (fun t => t.mistakes.contains m)
  let closed_mistake_trades := mistake_trades.filter isClosedTrade
  let total_pnl := (closed_mistake_trades.map pnlOr0).sum
  { name := m.name
    category := get_category_display m.category
    frequency := mistake_trades.length
    avg_pnl :=
      if 0 < closed_mistake_trades.length then
        total_pnl / (closed_mistake_trades.length : ℚ)
      else 0
    total_pnl := total_pnl }

/-- The `for mistake in Mistake.objects.all()` loop body: append a stat for
every catalog mistake tagged on at least one trade (`trade_count > 0`). -/
def mistake_stats_unsorted (trades : List Trade) (catalog : List Mistake) :
    List MistakeStat :=
  catalog.filterMap (fun m =>
    if 0 < (trades.filter (fun t => t.mistakes.contains m)).length then
      some (mkMistakeStat trades m)
    else none)

/-- The relation of `list.sort(key=..., reverse=True)`: greater-or-equal on
the sort key.  Python's sort is stable, and so is `List.insertionSort` with
this relation. -/
def keyGE (key : α → ℕ) : α → α → Prop :=
  fun a b => key b ≤ key a

instance (key : α → ℕ) : DecidableRel (keyGE key) :=
  fun a b => inferInstanceAs (Decidable (key b ≤ key a))

instance (key : α → ℕ) : IsTotal α (keyGE key) :=
  ⟨fun a b => le_total (key b) (key a)⟩

instance (key : α → ℕ) : IsTrans α (keyGE key) :=
  ⟨fun _ _ _ hab hbc => le_trans hbc hab⟩

/-- `l.sort(key=..., reverse=True)` / `sorted(l, key=..., reverse=True)`:
stable descending sort by a natural-number key. -/
def sortDescBy (key : α → ℕ) (l : List α) : List α :=
  List.insertionSort (keyGE key) l

/-- The value type of the `category_stats` dict:
`{'count': ..., 'total_pnl': ...}`. -/
structure CatAgg where
  count : ℕ
  total_pnl : ℚ
  deriving DecidableEq, Repr

/-- The in-place update of one dict entry:
`category_stats[cat]['count'] += stat['frequency']` and
`... ['total_pnl'] += stat['total_pnl']`, applied to the matching key and
leaving other keys unchanged. -/
def bumpCat (s : MistakeStat) (p : String × CatAgg) : String × CatAgg :=
  if p.1 = s.category then
    (p.1, CatAgg.mk (p.2.count + s.frequency) (p.2.total_pnl + s.total_pnl))
  else p

/-- One iteration of the `for stat in mistake_stats` grouping loop: bump the
category's entry if the key is present, otherwise append it (a Python dict
keeps insertion order). -/
def addStat (acc : List (String × CatAgg)) (s : MistakeStat) :
    List (String × CatAgg) :=
  if acc.any (fun p => p.1 = s.category) then acc.map (bumpCat s)
  else acc ++ [(s.category, CatAgg.mk s.frequency s.total_pnl)]

/-- The `category_stats` dict as an insertion-ordered association list. -/
def category_stats (stats : List MistakeStat) : List (String × CatAgg) :=
  stats.foldl addStat []

/-- One printed line of the category breakdown. -/
structure CategoryStat where
  category : String
  count : ℕ
  total_pnl : ℚ
  avg_pnl : ℚ
  deriving DecidableEq, Repr

/-- `sorted(category_stats.items(), key=lambda x: x[1]['count'],
reverse=True)` followed by the per-line guarded average
`data['total_pnl'] / data['count'] if data['count'] > 0 else 0`. -/
def category_rollup (stats : List MistakeStat) : List CategoryStat :=
  (sortDescBy (fun p => p.2.count) (category_stats stats)).map (fun p =>
    { category := p.1
      count := p.2.count
      total_pnl := p.2.total_pnl
      avg_pnl :=
        if 0 < p.2.count then p.2.total_pnl / (p.2.count : ℚ) else 0 })

/-- Output of `mistake_frequency_analysis`: the full sorted stat list, the
top-N slice actually printed (`mistake_stats[:10]` in the command,
`[:5]` in the ad-hoc script), and the category breakdown, which the code
builds from the full sorted list, not the slice. -/
structure MistakeReport where
  sorted_stats : List MistakeStat
  top : List MistakeStat
  by_category : List CategoryStat
  deriving Repr

/-- `Command.mistake_frequency_analysis`, with the printed-list length
parameterized (`N = 10` for the scheduled command, `N = 5` for
`run_analytics.py`). -/
def mistake_frequency_analysis (trades : List Trade) (catalog : List Mistake)
    (topN : ℕ) : MistakeReport :=
  let sorted_stats := sortDescBy (fun s => s.frequency)
    (mistake_stats_unsorted trades catalog)
  { sorted_stats := sorted_stats
    top := sorted_stats.take topN
    by_category := category_rollup sorted_stats }

/-! ## The command driver (`Command.handle` / `run_analytics`) -/

/-- One row of `django.contrib.auth.models.User` together with its
`related_name='trades'` reverse relation, scoped as the engine sees it. -/
structure UserRec where
  username : String
  trades : List Trade

/-- `Command.run_analytics`: the three independent reports for one user. -/
structure FullReport where
  rule : RuleReport
  emotion : EmotionReport
  mistake : MistakeReport

/-- `Command.run_analytics(user)`: run all three analyses (the command
prints the top 10 mistakes). -/
def run_analytics (trades : List Trade) (catalog : List Mistake) : FullReport :=
  { rule := rule_followed_analysis trades
    emotion := emotion_win_rate_analysis trades catalog
    mistake := mistake_frequency_analysis trades catalog 10 }

/-- The message written through `self.style.ERROR` when the `--user` lookup
fails. -/
def userNotFoundMsg (username : String) : String :=
  "User \"" ++ username ++ "\" not found"

/-- `Command.handle`: with `--user`, look the username up
(`User.objects.get`) and analyze that user, surfacing a user-facing error
when the lookup raises `User.DoesNotExist`; without it, analyze every user
that has at least one trade. -/
def handle (username : Option String) (users : List UserRec)
    (catalog : List Mistake) : Except String (List FullReport) :=
  match username with
  | some name =>
      match users.find? (fun u => u.username = name) with
      | some u => Except.ok [run_analytics u.trades catalog]
      | none => Except.error (userNotFoundMsg name)
  | none =>
      Except.ok ((users.filter (fun u => !u.trades.isEmpty)).map
        (fun u => run_analytics u.trades catalog))

/-! ## Specification-side helpers

Used only to state and verify properties about the definitions above; they
embed nothing new from the source. -/

/-- Lookup of a category key in the association-list dict: the count stored
under the first matching key, `0` when absent. -/
def catCount (l : List (String × CatAgg)) (c : String) : ℕ :=
  ((l.find? (fun p => p.1 = c)).map (fun p => p.2.count)).getD 0

/-- Lookup of a category key: the total P&L stored under the first matching
key, `0` when absent. -/
def catPnl (l : List (String × CatAgg)) (c : String) : ℚ :=
  ((l.find? (fun p => p.1 = c)).map (fun p => p.2.total_pnl)).getD 0

/-- Key-presence test for the dict. -/
def hasKey (l : List (String × CatAgg)) (c : String) : Bool :=
  l.any (fun p => p.1 = c)

/-- Sum of the `frequency` fields of the stats of one category. -/
def groupFreqSum (stats : List MistakeStat) (c : String) : ℕ :=
  ((stats.filter (fun s => s.category = c)).map (fun s => s.frequency)).sum

/-- Sum of the `total_pnl` fields of the stats of one category. -/
def groupPnlSum (stats : List MistakeStat) (c : String) : ℚ :=
  ((stats.filter (fun s => s.category = c)).map (fun s => s.total_pnl)).sum

/-- The ordering a stable descending sort by `key` realises on entries
annotated with their original position: strictly greater key, or equal key
and not-later original position. -/
def lexRel (key : α → ℕ) : (ℕ × α) → (ℕ × α) → Prop :=
  fun a b => key b.2 < key a.2 ∨ (key a.2 = key b.2 ∧ a.1 ≤ b.1)

instance (key : α → ℕ) : DecidableRel (lexRel key) :=
  fun _ _ => inferInstanceAs (Decidable (_ ∨ _))

instance (key : α → ℕ) : IsTotal (ℕ × α) (lexRel key) := by
  constructor
  intro a b
  unfold lexRel
  rcases lt_trichotomy (key a.2) (key b.2) with h | h | h
  · exact Or.inr (Or.inl h)
  · rcases le_total a.1 b.1 with hi | hi
    · exact Or.inl (Or.inr ⟨h, hi⟩)
    · exact Or.inr (Or.inr ⟨h.symm, hi⟩)
  · exact Or.inl (Or.inl h)

instance (key : α → ℕ) : IsTrans (ℕ × α) (lexRel key) := by
  constructor
  intro a b c hab hbc
  unfold lexRel at *
  rcases hab with h1 | ⟨h1, h1i⟩ <;> rcases hbc with h2 | ⟨h2, h2i⟩
  · exact Or.inl (lt_trans h2 h1)
  · exact Or.inl (h2 ▸ h1)
  · exact Or.inl (h1 ▸ h2)
  · exact Or.inr ⟨h1.trans h2, le_trans h1i h2i⟩

/-! ## Concrete sample data (for evaluation witnesses) -/

/-- An emotional (psychology) mistake from the seeded catalog. -/
def mPsy : Mistake := { name := "FOMO trading", category := "psychology" }

/-- A non-emotional (entry-timing) mistake. -/
def mEntry : Mistake := { name := "Late entry", category := "entry" }

/-- A non-emotional (risk) mistake, never tagged in the samples. -/
def mRisk : Mistake := { name := "No stop loss", category := "risk" }

/-- Sample catalog, in enumeration order. -/
def catalogSample : List Mistake := [mEntry, mRisk, mPsy]

/-- A closed, profitable buy trade tagged with two mistakes. -/
def wBuy : Trade :=
  { side := "buy", quantity := 1, entry_price := 10, entry_date := 1,
    exit_price := some 60, exit_date := some 2, mistakes := [mPsy, mEntry] }

/-- A closed, losing buy trade tagged with the emotional mistake. -/
def wLoss : Trade :=
  { side := "buy", quantity := 1, entry_price := 40, entry_date := 1,
    exit_price := some 10, exit_date := some 2, mistakes := [mPsy] }

/-- An open trade tagged with a non-emotional mistake. -/
def wOpen : Trade :=
  { side := "sell", quantity := 2, entry_price := 30, entry_date := 1,
    exit_price := none, exit_date := none, mistakes := [mEntry] }

/-- A closed, profitable sell trade with no tags. -/
def wSell : Trade :=
  { side := "sell", quantity := 50, entry_price := 20, entry_date := 1,
    exit_price := some 18, exit_date := some 2, mistakes := [] }

/-- A closed break-even buy trade. -/
def wFlat : Trade :=
  { side := "buy", quantity := 3, entry_price := 25, entry_date := 1,
    exit_price := some 25, exit_date := some 2, mistakes := [] }

/-- Sample trade ledger of one user. -/
def tradesSample : List Trade := [wBuy, wLoss, wOpen]

/-! ## General lemmas about the embedded operations -/

theorem isOpenTrade_eq_not_closed (t : Trade) :
    isOpenTrade t = !isClosedTrade t := by
  unfold isOpenTrade isClosedTrade
  cases t.exit_price <;> cases t.exit_date <;> rfl

theorem exit_price_eq_none_of_open (t : Trade) (hex : ExitConsistent t)
    (hopen : isOpenTrade t = true) : t.exit_price = none := by
  cases hep : t.exit_price with
  | none => rfl
  | some ep =>
    exfalso
    have hd : t.exit_date.isSome = true := hex.mp (by simp [hep])
    rw [isOpenTrade, hep] at hopen
    simp [Option.isNone_iff_eq_none] at hopen
    simp [hopen] at hd

theorem pnl_eq_none_iff (t : Trade) : t.pnl = none ↔ t.exit_price = none := by
  unfold Trade.pnl
  cases t.exit_price with
  | none => simp
  | some ep => by_cases hs : t.side = "buy" <;> simp [hs]

/-! ## Claims -/

/-- **C1.** For every trade satisfying the open/closed data-model invariant,
the derived `pnl` is absent exactly when the trade is open and, when closed,
equals `(exit − entry) × quantity` for `side = buy` and
`(entry − exit) × quantity` for `side = sell`; consequently the open
partition of the rule-compliance report has summed P&L `0` (the report
still carries the value `0` rather than failing). -/
theorem pnl_defined_iff_closed_and_open_pnl_zero :
    (∀ t : Trade, ExitConsistent t →
      (t.is_closed = false → t.pnl = none) ∧
      (t.is_closed = true → t.side = "buy" →
        ∃ ep, t.exit_price = some ep ∧
          t.pnl = some ((ep - t.entry_price) * t.quantity)) ∧
      (t.is_closed = true → t.side = "sell" →
        ∃ ep, t.exit_price = some ep ∧
          t.pnl = some ((t.entry_price - ep) * t.quantity))) ∧
    (∀ trades : List Trade, (∀ t ∈ trades, ExitConsistent t) →
      (rule_followed_analysis trades).open_pnl = 0) := by
  constructor
  · intro t hex
    refine ⟨?_, ?_, ?_⟩
    · intro hcl
      have hpn : t.exit_price = none := by
        cases hep : t.exit_price with
        | none => rfl
        | some ep =>
          exfalso
          have hd : t.exit_date.isSome = true := hex.mp (by simp [hep])
          rw [Trade.is_closed, hep] at hcl
          simp [hd] at hcl
      simp [Trade.pnl, hpn]
    · intro hcl hs
      cases hep : t.exit_price with
      | none => rw [Trade.is_closed, hep] at hcl; simp at hcl
      | some ep => exact ⟨ep, rfl, by simp [Trade.pnl, hep, hs]⟩
    · intro hcl hs
      cases hep : t.exit_price with
      | none => rw [Trade.is_closed, hep] at hcl; simp at hcl
      | some ep => exact ⟨ep, rfl, by simp [Trade.pnl, hep, hs]⟩
  · intro trades hex
    show ((trades.filter isOpenTrade).map pnlOr0).sum = 0
    apply List.sum_eq_zero
    intro x hx
    rw [List.mem_map] at hx
    obtain ⟨t, ht, rfl⟩ := hx
    rw [List.mem_filter] at ht
    have hpn := exit_price_eq_none_of_open t (hex t ht.1) ht.2
    simp [pnlOr0, Trade.pnl, hpn]

/-- Witness for C1: on the sample ledger (two closed trades, one open, all
satisfying the invariant) the open partition's summed P&L is `0`, and the
closed buy trade's pnl is `(60 − 10) × 1`. -/
theorem pnl_defined_iff_closed_and_open_pnl_zero_witness :
    (rule_followed_analysis tradesSample).open_pnl = 0 ∧
    (∃ ep, wBuy.exit_price = some ep ∧
      wBuy.pnl = some ((ep - wBuy.entry_price) * wBuy.quantity)) := by
  refine ⟨pnl_defined_iff_closed_and_open_pnl_zero.2 tradesSample ?_, ?_⟩
  · intro t ht
    fin_cases ht <;> decide
  · exact (pnl_defined_iff_closed_and_open_pnl_zero.1 wBuy (by decide)).2.1
      (by decide) rfl

/-- **C2.** For every trade set, the rule-compliance report's closed and
open partitions are complementary: their counts sum to the total trade
count, and no trade satisfies both partition filters. -/
theorem closed_open_partition (trades : List Trade) :
    (rule_followed_analysis trades).closed_count +
      (rule_followed_analysis trades).open_count = trades.length ∧
    (∀ t : Trade, (isClosedTrade t && isOpenTrade t) = false) := by
  constructor
  · show (trades.filter isClosedTrade).length +
      (trades.filter isOpenTrade).length = trades.length
    have he : trades.filter isOpenTrade
        = trades.filter (fun t => !isClosedTrade t) := by
      apply List.filter_congr
      intro t _
      exact isOpenTrade_eq_not_closed t
    rw [he]
    exact (List.length_eq_length_filter_add isClosedTrade).symm
  · intro t
    cases hep : t.exit_price <;> cases hed : t.exit_date <;>
      simp [isClosedTrade, isOpenTrade, hep, hed]

/-- Witness for C2 on the sample ledger: `2 + 1 = 3`. -/
theorem closed_open_partition_witness :
    (rule_followed_analysis tradesSample).closed_count +
      (rule_followed_analysis tradesSample).open_count = 3 := by
  have h := (closed_open_partition tradesSample).1
  simpa using h

/-- **C8.** For every closed trade with positive quantity and positive
prices, pnl is strictly positive for a buy exited above entry and for a
sell exited below entry (exact `ℚ` arithmetic). -/
theorem pnl_sign (t : Trade) (ep : ℚ) (hq : 0 < t.quantity)
    (_hentry : 0 < t.entry_price) (_hexit : 0 < ep)
    (_hclosed : t.is_closed = true) (hep : t.exit_price = some ep) :
    (t.side = "buy" → t.entry_price < ep → ∃ p, t.pnl = some p ∧ 0 < p) ∧
    (t.side = "sell" → ep < t.entry_price → ∃ p, t.pnl = some p ∧ 0 < p) := by
  constructor
  · intro hs hlt
    exact ⟨(ep - t.entry_price) * t.quantity, by simp [Trade.pnl, hep, hs],
      mul_pos (sub_pos.mpr hlt) hq⟩
  · intro hs hlt
    exact ⟨(t.entry_price - ep) * t.quantity, by simp [Trade.pnl, hep, hs],
      mul_pos (sub_pos.mpr hlt) hq⟩

/-- Witness for C8: the sample winning buy and winning sell both have
strictly positive pnl. -/
theorem pnl_sign_witness :
    (∃ p, wBuy.pnl = some p ∧ 0 < p) ∧ (∃ p, wSell.pnl = some p ∧ 0 < p) := by
  constructor
  · exact (pnl_sign wBuy 60 (by norm_num [wBuy]) (by norm_num [wBuy])
      (by norm_num) (by decide) rfl).1 rfl (by norm_num [wBuy])
  · exact (pnl_sign wSell 18 (by norm_num [wSell]) (by norm_num [wSell])
      (by norm_num) (by decide) rfl).2 rfl (by norm_num [wSell])

/-- **C3, counterexample.** On the empty trade set there are no closed
trades and the total count is `0`, yet the report does not carry `0` for
the average closed P&L or the compliance rate: the code skips those two
lines entirely (`if closed_count > 0:` / `if closed_count + open_count >
0:`), so the values are absent, not `0`. -/
theorem division_guard_counterexample :
    (rule_followed_analysis []).closed_count = 0 ∧
    (rule_followed_analysis []).closed_count +
      (rule_followed_analysis []).open_count = 0 ∧
    (rule_followed_analysis []).avg_closed_pnl ≠ some 0 ∧
    (rule_followed_analysis []).compliance_rate ≠ some 0 := by
  refine ⟨rfl, rfl, ?_, ?_⟩ <;> simp [rule_followed_analysis]

/-- **C3, amended.** No division in the reports is ever performed with a
zero denominator: the rule-compliance report's average-closed-P&L and
compliance-rate values are omitted (absent, not reported as `0`) when their
denominators are `0` and equal the true quotients otherwise, and a
mistake's average P&L substitutes `0` when no closed trades carry its tag
(even if open trades do). -/
theorem division_guard_amended :
    (∀ trades : List Trade,
      ((rule_followed_analysis trades).closed_count = 0 →
        (rule_followed_analysis trades).avg_closed_pnl = none) ∧
      (0 < (rule_followed_analysis trades).closed_count →
        (rule_followed_analysis trades).avg_closed_pnl =
          some ((rule_followed_analysis trades).closed_pnl /
            ((rule_followed_analysis trades).closed_count : ℚ))) ∧
      ((rule_followed_analysis trades).closed_count +
          (rule_followed_analysis trades).open_count = 0 →
        (rule_followed_analysis trades).compliance_rate = none) ∧
      (0 < (rule_followed_analysis trades).closed_count +
          (rule_followed_analysis trades).open_count →
        (rule_followed_analysis trades).compliance_rate =
          some ((((rule_followed_analysis trades).closed_count : ℚ) /
            (((rule_followed_analysis trades).closed_count : ℚ) +
              ((rule_followed_analysis trades).open_count : ℚ))) * 100))) ∧
    (∀ (trades : List Trade) (m : Mistake),
      ((trades.filter (fun t => t.mistakes.contains m)).filter
          isClosedTrade).length = 0 →
        (mkMistakeStat trades m).avg_pnl = 0) ∧
    (∀ (trades : List Trade) (m : Mistake),
      0 < ((trades.filter (fun t => t.mistakes.contains m)).filter
          isClosedTrade).length →
        (mkMistakeStat trades m).avg_pnl = (mkMistakeStat trades m).total_pnl /
          (((trades.filter (fun t => t.mistakes.contains m)).filter
            isClosedTrade).length : ℚ)) := by
  refine ⟨?_, ?_, ?_⟩
  · intro trades
    have h1 : (rule_followed_analysis trades).avg_closed_pnl =
        if 0 < (rule_followed_analysis trades).closed_count then
          some ((rule_followed_analysis trades).closed_pnl /
            ((rule_followed_analysis trades).closed_count : ℚ))
        else none := rfl
    have h2 : (rule_followed_analysis trades).compliance_rate =
        if 0 < (rule_followed_analysis trades).closed_count +
            (rule_followed_analysis trades).open_count then
          some ((((rule_followed_analysis trades).closed_count : ℚ) /
            (((rule_followed_analysis trades).closed_count : ℚ) +
              ((rule_followed_analysis trades).open_count : ℚ))) * 100)
        else none := rfl
    refine ⟨fun h => ?_, fun h => ?_, fun h => ?_, fun h => ?_⟩
    · rw [h1, if_neg]; omega
    · rw [h1, if_pos h]
    · rw [h2, if_neg]; omega
    · rw [h2, if_pos h]
  · intro trades m h
    have h3 : (mkMistakeStat trades m).avg_pnl =
        if 0 < ((trades.filter (fun t => t.mistakes.contains m)).filter
            isClosedTrade).length then
          (mkMistakeStat trades m).total_pnl /
            (((trades.filter (fun t => t.mistakes.contains m)).filter
              isClosedTrade).length : ℚ)
        else 0 := rfl
    rw [h3, if_neg]; omega
  · intro trades m h
    have h3 : (mkMistakeStat trades m).avg_pnl =
        if 0 < ((trades.filter (fun t => t.mistakes.contains m)).filter
            isClosedTrade).length then
          (mkMistakeStat trades m).total_pnl /
            (((trades.filter (fun t => t.mistakes.contains m)).filter
              isClosedTrade).length : ℚ)
        else 0 := rfl
    rw [h3, if_pos h]

/-- Witness for the amended C3: the empty report omits both guarded lines,
and a mistake tagged only on an open trade gets average P&L `0`. -/
theorem division_guard_amended_witness :
    (rule_followed_analysis []).avg_closed_pnl = none ∧
    (rule_followed_analysis []).compliance_rate = none ∧
    (mkMistakeStat [wOpen] mEntry).avg_pnl = 0 := by
  refine ⟨(division_guard_amended.1 []).1 (by decide),
    ((division_guard_amended.1 []).2.2.1 (by decide)),
    division_guard_amended.2.1 [wOpen] mEntry (by decide)⟩

/-- Bounds for the win-rate expression. -/
theorem winRatePct_bounds (w t : ℕ) (h : w ≤ t) :
    0 ≤ winRatePct w t ∧ winRatePct w t ≤ 100 := by
  unfold winRatePct
  split_ifs with ht
  · have ht' : (0 : ℚ) < t := by exact_mod_cast ht
    have hw : (w : ℚ) ≤ t := by exact_mod_cast h
    constructor
    · positivity
    · have h1 : (w : ℚ) / t ≤ 1 := (div_le_one ht').mpr hw
      calc (w : ℚ) / t * 100 ≤ 1 * 100 :=
        mul_le_mul_of_nonneg_right h1 (by norm_num)
      _ = 100 := by norm_num
  · norm_num

/-- **C4.** In the emotion-vs-win-rate report, each partition's win rate is
`wins / closed_count × 100` over its closed trades, where a win is exactly
a buy exited strictly above entry or a sell exited strictly below entry
(break-even counts as a loss); the win rate lies in `[0, 100]`, and a
partition with no closed trades reports win rate `0`. -/
theorem win_rate_spec (qs : List Trade) :
    (calculate_win_rate qs).1 =
      ((qs.filter isClosedTrade).filter isWinTrade).length ∧
    (calculate_win_rate qs).2 = (qs.filter isClosedTrade).length ∧
    (∀ t ∈ qs.filter isClosedTrade,
      (isWinTrade t = true ↔
        ((t.side = "buy" ∧ ∃ ep, t.exit_price = some ep ∧ t.entry_price < ep) ∨
         (t.side = "sell" ∧ ∃ ep, t.exit_price = some ep ∧ ep < t.entry_price)))) ∧
    (∀ t ∈ qs.filter isClosedTrade, ∀ ep, t.exit_price = some ep →
      ep = t.entry_price → isWinTrade t = false) ∧
    0 ≤ winRatePct (calculate_win_rate qs).1 (calculate_win_rate qs).2 ∧
    winRatePct (calculate_win_rate qs).1 (calculate_win_rate qs).2 ≤ 100 ∧
    ((qs.filter isClosedTrade).length = 0 →
      winRatePct (calculate_win_rate qs).1 (calculate_win_rate qs).2 = 0) ∧
    (∀ (trades : List Trade) (catalog : List Mistake),
      (emotion_win_rate_analysis trades catalog).emotion_win_rate =
        winRatePct (emotion_win_rate_analysis trades catalog).emotion_wins
          (emotion_win_rate_analysis trades catalog).emotion_total ∧
      (emotion_win_rate_analysis trades catalog).non_emotion_win_rate =
        winRatePct (emotion_win_rate_analysis trades catalog).non_emotion_wins
          (emotion_win_rate_analysis trades catalog).non_emotion_total) := by
  have hcwr : calculate_win_rate qs =
      (((qs.filter isClosedTrade).filter isWinTrade).length,
        (qs.filter isClosedTrade).length) := by
    show (if (qs.filter isClosedTrade).length = 0 then ((0 : ℕ), (0 : ℕ))
      else (((qs.filter isClosedTrade).filter isWinTrade).length,
        (qs.filter isClosedTrade).length)) =
      (((qs.filter isClosedTrade).filter isWinTrade).length,
        (qs.filter isClosedTrade).length)
    by_cases h : (qs.filter isClosedTrade).length = 0
    · rw [if_pos h]
      have he : qs.filter isClosedTrade = [] := List.length_eq_zero.mp h
      rw [he]
      rfl
    · rw [if_neg h]
  refine ⟨by rw [hcwr], by rw [hcwr], ?_, ?_, ?_, ?_, ?_, fun _ _ => ⟨rfl, rfl⟩⟩
  · intro t ht
    rw [List.mem_filter] at ht
    have hcl := ht.2
    unfold isClosedTrade at hcl
    cases hep : t.exit_price with
    | none => rw [hep] at hcl; simp at hcl
    | some ep => simp [isWinTrade, hep]
  · intro t _ ep hep heq
    unfold isWinTrade
    rw [hep]
    subst heq
    simp
  · rw [hcwr]
    exact (winRatePct_bounds _ _ (List.length_filter_le _ _)).1
  · rw [hcwr]
    exact (winRatePct_bounds _ _ (List.length_filter_le _ _)).2
  · intro h
    rw [hcwr]
    simp [winRatePct, h]

/-- Witness for C4: on the sample ledger the win rate is within bounds and
the break-even trade counts as a loss. -/
theorem win_rate_spec_witness :
    winRatePct (calculate_win_rate tradesSample).1
      (calculate_win_rate tradesSample).2 ≤ 100 ∧
    isWinTrade wFlat = false := by
  constructor
  · exact (win_rate_spec tradesSample).2.2.2.2.2.1
  · exact (win_rate_spec [wFlat]).2.2.2.1 wFlat (by decide) 25 rfl (by norm_num [wFlat])

/-- **C7.** The emotion report's two partitions are exhaustive and
disjoint: counts sum to the total, no trade satisfies both filters, and —
given referential integrity of the tag relation — a trade is in the
emotional partition exactly when it carries at least one tag whose name is
in the fixed emotional-mistake set. -/
theorem emotion_partition (trades : List Trade) (catalog : List Mistake)
    (hint : ∀ t ∈ trades, ∀ m ∈ t.mistakes, m ∈ catalog) :
    (emotion_win_rate_analysis trades catalog).emotional_count +
      (emotion_win_rate_analysis trades catalog).non_emotional_count
        = trades.length ∧
    (∀ t : Trade,
      ¬(isEmotionalTrade catalog t = true ∧
        (!isEmotionalTrade catalog t) = true)) ∧
    (∀ t ∈ trades, (isEmotionalTrade catalog t = true ↔
      ∃ m ∈ t.mistakes, m.name ∈ emotional_mistakes)) := by
  refine ⟨?_, ?_, ?_⟩
  · show (trades.filter (isEmotionalTrade catalog)).length +
      (trades.filter (fun t => !isEmotionalTrade catalog t)).length
        = trades.length
    exact (List.length_eq_length_filter_add (isEmotionalTrade catalog)).symm
  · intro t ⟨h1, h2⟩
    rw [h1] at h2
    simp at h2
  · intro t ht
    unfold isEmotionalTrade
    rw [List.any_eq_true]
    constructor
    · rintro ⟨m, hm, hcont⟩
      refine ⟨m, hm, ?_⟩
      simp only [List.contains, List.elem_eq_mem, decide_eq_true_iff] at hcont
      rw [emotion_mistake_objects, List.mem_filter] at hcont
      simpa using hcont.2
    · rintro ⟨m, hm, hname⟩
      refine ⟨m, hm, ?_⟩
      simp only [List.contains, List.elem_eq_mem, decide_eq_true_iff]
      rw [emotion_mistake_objects, List.mem_filter]
      exact ⟨hint t ht m hm, by simpa using hname⟩

/-- Witness for C7: on the sample data `2 + 1 = 3` and the buy trade
(tagged FOMO) is emotional. -/
theorem emotion_partition_witness :
    (emotion_win_rate_analysis tradesSample catalogSample).emotional_count +
      (emotion_win_rate_analysis tradesSample catalogSample).non_emotional_count
        = 3 ∧
    isEmotionalTrade catalogSample wBuy = true := by
  have h := emotion_partition tradesSample catalogSample
    (by intro t ht m hm; fin_cases ht <;> fin_cases hm <;> decide)
  constructor
  · have := h.1
    simpa using this
  · exact (h.2.2 wBuy (by decide)).mpr ⟨mPsy, by decide, by decide⟩

/-- **C9.** With `--user`, a failed username lookup surfaces the
user-facing error message and computes no report, and a successful lookup
(and the all-users run) always completes with a computed report. -/
theorem user_lookup_only_failure (username : String) (users : List UserRec)
    (catalog : List Mistake) :
    ((∀ u ∈ users, u.username ≠ username) →
      handle (some username) users catalog =
        Except.error (userNotFoundMsg username)) ∧
    ((∃ u ∈ users, u.username = username) →
      ∃ rep, handle (some username) users catalog = Except.ok [rep]) ∧
    (∃ reports, handle none users catalog = Except.ok reports) := by
  have hred : handle (some username) users catalog =
      match users.find? (fun u => u.username = username) with
      | some u => Except.ok [run_analytics u.trades catalog]
      | none => Except.error (userNotFoundMsg username) := rfl
  refine ⟨?_, ?_, ⟨_, rfl⟩⟩
  · intro h
    have hf : users.find? (fun u => u.username = username) = none := by
      rw [List.find?_eq_none]
      intro u hu
      simp [h u hu]
    rw [hred, hf]
  · rintro ⟨u, hu, heq⟩
    have hs : (users.find? (fun u => u.username = username)).isSome := by
      rw [List.find?_isSome]
      exact ⟨u, hu, by simp [heq]⟩
    obtain ⟨v, hv⟩ := Option.isSome_iff_exists.mp hs
    rw [hred, hv]
    exact ⟨_, rfl⟩

/-- Witness for C9: a missing username yields the error, a present one a
report. -/
theorem user_lookup_only_failure_witness :
    handle (some "ghost") [UserRec.mk "alice" tradesSample] catalogSample
      = Except.error (userNotFoundMsg "ghost") ∧
    (∃ rep, handle (some "alice") [UserRec.mk "alice" tradesSample]
      catalogSample = Except.ok [rep]) := by
  constructor
  · exact (user_lookup_only_failure "ghost" _ _).1
      (by intro u hu; fin_cases hu; decide)
  · exact (user_lookup_only_failure "alice" _ _).2.1
      ⟨UserRec.mk "alice" tradesSample, List.mem_singleton.mpr rfl, rfl⟩

/-! ## Lemmas about the mistake-stat list and the stable sort -/

theorem mem_mistake_stats_iff (trades : List Trade) (catalog : List Mistake)
    (s : MistakeStat) :
    s ∈ mistake_stats_unsorted trades catalog ↔
      ∃ m ∈ catalog,
        0 < (trades.filter (fun t => t.mistakes.contains m)).length ∧
        s = mkMistakeStat trades m := by
  unfold mistake_stats_unsorted
  rw [List.mem_filterMap]
  constructor
  · rintro ⟨m, hm, hsome⟩
    by_cases h : 0 < (trades.filter (fun t => t.mistakes.contains m)).length
    · rw [if_pos h] at hsome
      exact ⟨m, hm, h, (Option.some.inj hsome).symm⟩
    · rw [if_neg h] at hsome
      simp at hsome
  · rintro ⟨m, hm, h, rfl⟩
    exact ⟨m, hm, by rw [if_pos h]⟩

theorem frequency_pos_of_mem_stats (trades : List Trade)
    (catalog : List Mistake) (s : MistakeStat)
    (hs : s ∈ mistake_stats_unsorted trades catalog) : 1 ≤ s.frequency := by
  rw [mem_mistake_stats_iff] at hs
  obtain ⟨m, _, h, rfl⟩ := hs
  show 1 ≤ (trades.filter (fun t => t.mistakes.contains m)).length
  omega

theorem mem_sortDescBy (key : α → ℕ) (l : List α) (x : α) :
    x ∈ sortDescBy key l ↔ x ∈ l :=
  (List.perm_insertionSort (keyGE key) l).mem_iff

theorem orderedInsert_lexRel_agree (key : α → ℕ) (x : ℕ × α)
    (s : List (ℕ × α)) (hidx : ∀ y ∈ s, x.1 ≤ y.1) :
    List.orderedInsert (keyGE (fun p => key p.2)) x s =
      List.orderedInsert (lexRel key) x s := by
  induction s with
  | nil => rfl
  | cons y ys ih =>
    show (if keyGE (fun p => key p.2) x y then x :: y :: ys
        else y :: List.orderedInsert (keyGE (fun p => key p.2)) x ys) =
      (if lexRel key x y then x :: y :: ys
        else y :: List.orderedInsert (lexRel key) x ys)
    by_cases h : key y.2 ≤ key x.2
    · have h1 : keyGE (fun p => key p.2) x y := h
      have h2 : lexRel key x y := by
        rcases lt_or_eq_of_le h with hlt | heq
        · exact Or.inl hlt
        · exact Or.inr ⟨heq.symm, hidx y (List.mem_cons_self y ys)⟩
      rw [if_pos h1, if_pos h2]
    · have h1 : ¬keyGE (fun p => key p.2) x y := h
      have h2 : ¬lexRel key x y := by
        rintro (hlt | ⟨heq, _⟩)
        · exact h (le_of_lt hlt)
        · exact h (le_of_eq heq.symm)
      rw [if_neg h1, if_neg h2,
        ih (fun z hz => hidx z (List.mem_cons_of_mem y hz))]

theorem insertionSort_lexRel_agree (key : α → ℕ) (l : List (ℕ × α))
    (hl : List.Pairwise (fun a b => a.1 ≤ b.1) l) :
    List.insertionSort (keyGE (fun p => key p.2)) l =
      List.insertionSort (lexRel key) l := by
  induction l with
  | nil => rfl
  | cons a l ih =>
    rcases List.pairwise_cons.mp hl with ⟨h1, h2⟩
    show List.orderedInsert (keyGE (fun p => key p.2)) a
        (List.insertionSort (keyGE (fun p => key p.2)) l) =
      List.orderedInsert (lexRel key) a (List.insertionSort (lexRel key) l)
    rw [ih h2]
    apply orderedInsert_lexRel_agree
    intro y hy
    exact h1 y ((List.perm_insertionSort (lexRel key) l).mem_iff.mp hy)

theorem fst_le_of_mem_enumFrom (n : ℕ) (l : List α) (y : ℕ × α)
    (hy : y ∈ l.enumFrom n) : n ≤ y.1 := by
  induction l generalizing n with
  | nil => cases hy
  | cons a l ih =>
    rw [List.enumFrom_cons] at hy
    rcases List.mem_cons.mp hy with rfl | hy'
    · exact le_refl n
    · exact le_trans (Nat.le_succ n) (ih (n + 1) hy')

theorem pairwise_fst_le_enumFrom (n : ℕ) (l : List α) :
    List.Pairwise (fun a b : ℕ × α => a.1 ≤ b.1) (l.enumFrom n) := by
  induction l generalizing n with
  | nil => exact List.Pairwise.nil
  | cons a l ih =>
    rw [List.enumFrom_cons]
    exact List.Pairwise.cons
      (fun y hy => le_trans (Nat.le_succ n) (fst_le_of_mem_enumFrom (n + 1) l y hy))
      (ih (n + 1))

theorem map_snd_orderedInsert (key : α → ℕ) (x : ℕ × α) (s : List (ℕ × α)) :
    (List.orderedInsert (keyGE (fun p => key p.2)) x s).map Prod.snd =
      List.orderedInsert (keyGE key) x.2 (s.map Prod.snd) := by
  induction s with
  | nil => rfl
  | cons y ys ih =>
    show (if keyGE (fun p => key p.2) x y then x :: y :: ys
        else y :: List.orderedInsert (keyGE (fun p => key p.2)) x ys).map Prod.snd =
      (if keyGE key x.2 y.2 then x.2 :: y.2 :: ys.map Prod.snd
        else y.2 :: List.orderedInsert (keyGE key) x.2 (ys.map Prod.snd))
    by_cases h : key y.2 ≤ key x.2
    · have h1 : keyGE (fun p => key p.2) x y := h
      have h2 : keyGE key x.2 y.2 := h
      rw [if_pos h1, if_pos h2]
      rfl
    · have h1 : ¬keyGE (fun p => key p.2) x y := h
      have h2 : ¬keyGE key x.2 y.2 := h
      rw [if_neg h1, if_neg h2, List.map_cons, ih]

theorem map_snd_insertionSort (key : α → ℕ) (l : List (ℕ × α)) :
    (List.insertionSort (keyGE (fun p => key p.2)) l).map Prod.snd =
      List.insertionSort (keyGE key) (l.map Prod.snd) := by
  induction l with
  | nil => rfl
  | cons a l ih =>
    show (List.orderedInsert (keyGE (fun p => key p.2)) a
        (List.insertionSort (keyGE (fun p => key p.2)) l)).map Prod.snd =
      List.orderedInsert (keyGE key) a.2
        (List.insertionSort (keyGE key) (l.map Prod.snd))
    rw [map_snd_orderedInsert, ih]

theorem sortDescBy_stable (key : α → ℕ) (l : List α) :
    sortDescBy key l =
      (List.insertionSort (lexRel key) l.enum).map Prod.snd := by
  have h1 : l.enum.map Prod.snd = l := List.enumFrom_map_snd 0 l
  have h2 := map_snd_insertionSort key l.enum
  rw [h1] at h2
  rw [sortDescBy, ← h2,
    insertionSort_lexRel_agree key l.enum (pairwise_fst_le_enumFrom 0 l)]

/-! ## Lemmas about the category dict -/

theorem bumpCat_fst (s : MistakeStat) (p : String × CatAgg) :
    (bumpCat s p).1 = p.1 := by
  unfold bumpCat
  split <;> rfl

theorem find?_addStat (acc : List (String × CatAgg)) (s : MistakeStat)
    (c : String) :
    (addStat acc s).find? (fun p => p.1 = c) =
      match acc.find? (fun p => p.1 = c) with
      | some p => some (bumpCat s p)
      | none =>
          if s.category = c then
            some (s.category, CatAgg.mk s.frequency s.total_pnl)
          else none := by
  unfold addStat
  by_cases hk : acc.any (fun p => p.1 = s.category)
  · rw [if_pos hk, List.find?_map]
    have hcomp : ((fun p : String × CatAgg => decide (p.1 = c)) ∘ bumpCat s)
        = fun p : String × CatAgg => decide (p.1 = c) := by
      funext q
      simp [Function.comp, bumpCat_fst]
    rw [hcomp]
    cases hf : acc.find? (fun p => p.1 = c) with
    | some p => rfl
    | none =>
      by_cases hc : s.category = c
      · exfalso
        rw [List.any_eq_true] at hk
        obtain ⟨p, hp, hps⟩ := hk
        rw [List.find?_eq_none] at hf
        apply hf p hp
        simp at hps ⊢
        rw [hps, hc]
      · simp [hc]
  · rw [if_neg hk, List.find?_append]
    cases hf : acc.find? (fun p => p.1 = c) with
    | some p =>
      have hp1 : p.1 = c := by simpa using List.find?_some hf
      have hmem : p ∈ acc := List.mem_of_find?_eq_some hf
      have hne : p.1 ≠ s.category := by
        intro he
        exact hk (List.any_eq_true.mpr ⟨p, hmem, by simp [he]⟩)
      rw [Option.or_some]
      show some p = some (bumpCat s p)
      unfold bumpCat
      rw [if_neg hne]
    | none =>
      rw [Option.none_or]
      by_cases hc : s.category = c
      · simp [hc]
      · simp [hc]

theorem catCount_addStat (acc : List (String × CatAgg)) (s : MistakeStat)
    (c : String) :
    catCount (addStat acc s) c =
      catCount acc c + (if s.category = c then s.frequency else 0) := by
  unfold catCount
  rw [find?_addStat]
  cases hf : acc.find? (fun p => p.1 = c) with
  | some p =>
    have hp1 : p.1 = c := by simpa using List.find?_some hf
    show (bumpCat s p).2.count = p.2.count + _
    unfold bumpCat
    by_cases hc : p.1 = s.category
    · have hsc : s.category = c := by rw [← hc]; exact hp1
      rw [if_pos hc, if_pos hsc]
    · have hsc : ¬s.category = c := by
        intro he
        exact hc (by rw [hp1, ← he])
      rw [if_neg hc, if_neg hsc]
      omega
  | none =>
    by_cases hc : s.category = c
    · rw [if_pos hc, if_pos hc]
      simp
    · rw [if_neg hc, if_neg hc]
      simp

theorem catPnl_addStat (acc : List (String × CatAgg)) (s : MistakeStat)
    (c : String) :
    catPnl (addStat acc s) c =
      catPnl acc c + (if s.category = c then s.total_pnl else 0) := by
  unfold catPnl
  rw [find?_addStat]
  cases hf : acc.find? (fun p => p.1 = c) with
  | some p =>
    have hp1 : p.1 = c := by simpa using List.find?_some hf
    show (bumpCat s p).2.total_pnl = p.2.total_pnl + _
    unfold bumpCat
    by_cases hc : p.1 = s.category
    · have hsc : s.category = c := by rw [← hc]; exact hp1
      rw [if_pos hc, if_pos hsc]
    · have hsc : ¬s.category = c := by
        intro he
        exact hc (by rw [hp1, ← he])
      rw [if_neg hc, if_neg hsc]
      show p.2.total_pnl = p.2.total_pnl + 0
      rw [add_zero]
  | none =>
    by_cases hc : s.category = c
    · rw [if_pos hc, if_pos hc]
      show s.total_pnl = 0 + s.total_pnl
      rw [zero_add]
    · rw [if_neg hc, if_neg hc]
      show (0 : ℚ) = 0 + 0
      rw [add_zero]

theorem hasKey_addStat (acc : List (String × CatAgg)) (s : MistakeStat)
    (c : String) :
    hasKey (addStat acc s) c = (hasKey acc c || decide (s.category = c)) := by
  unfold hasKey addStat
  by_cases hk : acc.any (fun p => p.1 = s.category)
  · rw [if_pos hk, List.any_map]
    have hcomp : ((fun p : String × CatAgg => decide (p.1 = c)) ∘ bumpCat s)
        = fun p : String × CatAgg => decide (p.1 = c) := by
      funext q
      simp [Function.comp, bumpCat_fst]
    rw [hcomp]
    by_cases hc : s.category = c
    · have hacc : acc.any (fun p => p.1 = c) = true := by
        rw [List.any_eq_true] at hk ⊢
        obtain ⟨p, hp, hps⟩ := hk
        refine ⟨p, hp, ?_⟩
        simp at hps ⊢
        rw [hps, hc]
      rw [hacc]
      simp [hc]
    · simp [hc]
  · rw [if_neg hk, List.any_append]
    simp

theorem keys_nodup_addStat (acc : List (String × CatAgg)) (s : MistakeStat)
    (h : (acc.map Prod.fst).Nodup) :
    ((addStat acc s).map Prod.fst).Nodup := by
  unfold addStat
  by_cases hk : acc.any (fun p => p.1 = s.category)
  · rw [if_pos hk, List.map_map]
    have hcomp : (Prod.fst ∘ bumpCat s)
        = (Prod.fst : String × CatAgg → String) := by
      funext q
      exact bumpCat_fst s q
    rw [hcomp]
    exact h
  · rw [if_neg hk, List.map_append]
    rw [List.nodup_append]
    refine ⟨h, List.nodup_singleton _, ?_⟩
    intro x hx hx2
    simp at hx2
    subst hx2
    rw [List.mem_map] at hx
    obtain ⟨p, hp, hps⟩ := hx
    exact absurd (List.any_eq_true.mpr ⟨p, hp, by simp [hps]⟩) hk

theorem groupFreqSum_cons (s : MistakeStat) (rest : List MistakeStat)
    (c : String) :
    groupFreqSum (s :: rest) c =
      (if s.category = c then s.frequency else 0) + groupFreqSum rest c := by
  unfold groupFreqSum
  rw [List.filter_cons]
  by_cases hc : s.category = c
  · simp [hc]
  · simp [hc]

theorem groupPnlSum_cons (s : MistakeStat) (rest : List MistakeStat)
    (c : String) :
    groupPnlSum (s :: rest) c =
      (if s.category = c then s.total_pnl else 0) + groupPnlSum rest c := by
  unfold groupPnlSum
  rw [List.filter_cons]
  by_cases hc : s.category = c
  · simp [hc]
  · simp [hc]

theorem category_stats_foldl (stats : List MistakeStat) :
    ∀ acc : List (String × CatAgg),
      (∀ c, catCount (stats.foldl addStat acc) c
        = catCount acc c + groupFreqSum stats c) ∧
      (∀ c, catPnl (stats.foldl addStat acc) c
        = catPnl acc c + groupPnlSum stats c) ∧
      (∀ c, hasKey (stats.foldl addStat acc) c
        = (hasKey acc c || stats.any (fun s => s.category = c))) ∧
      ((acc.map Prod.fst).Nodup →
        ((stats.foldl addStat acc).map Prod.fst).Nodup) := by
  induction stats with
  | nil =>
    intro acc
    refine ⟨fun c => ?_, fun c => ?_, fun c => ?_, fun h => h⟩
    · simp [groupFreqSum]
    · simp [groupPnlSum]
    · simp
  | cons s rest ih =>
    intro acc
    rw [List.foldl_cons]
    obtain ⟨ih1, ih2, ih3, ih4⟩ := ih (addStat acc s)
    refine ⟨fun c => ?_, fun c => ?_, fun c => ?_,
      fun h => ih4 (keys_nodup_addStat acc s h)⟩
    · rw [ih1 c, catCount_addStat, groupFreqSum_cons]
      omega
    · rw [ih2 c, catPnl_addStat, groupPnlSum_cons]
      ring
    · rw [ih3 c, hasKey_addStat, List.any_cons, Bool.or_assoc]

theorem find?_self_of_nodup_keys (l : List (String × CatAgg))
    (h : (l.map Prod.fst).Nodup) (p : String × CatAgg) (hp : p ∈ l) :
    l.find? (fun q => q.1 = p.1) = some p := by
  induction l with
  | nil => cases hp
  | cons a l ih =>
    rw [List.map_cons, List.nodup_cons] at h
    rcases List.mem_cons.mp hp with rfl | hp2
    · rw [List.find?_cons_of_pos]
      simp
    · have hne : ¬(a.1 = p.1) := by
        intro he
        exact h.1 (he ▸ List.mem_map.mpr ⟨p, hp2, rfl⟩)
      rw [List.find?_cons_of_neg]
      · exact ih h.2 hp2
      · simp [hne]

theorem mem_category_stats_spec (stats : List MistakeStat)
    (p : String × CatAgg) (hp : p ∈ category_stats stats) :
    p.2.count = groupFreqSum stats p.1 ∧
    p.2.total_pnl = groupPnlSum stats p.1 ∧
    stats.any (fun s => s.category = p.1) = true := by
  rw [category_stats] at hp
  obtain ⟨h1, h2, h3, h4⟩ := category_stats_foldl stats []
  have hnd : ((stats.foldl addStat []).map Prod.fst).Nodup := h4 (by simp)
  have hfind := find?_self_of_nodup_keys _ hnd p hp
  refine ⟨?_, ?_, ?_⟩
  · have := h1 p.1
    unfold catCount at this
    rw [hfind] at this
    simpa using this
  · have := h2 p.1
    unfold catPnl at this
    rw [hfind] at this
    simpa using this
  · have := h3 p.1
    have hk : hasKey (stats.foldl addStat []) p.1 = true := by
      unfold hasKey
      exact List.any_eq_true.mpr ⟨p, hp, by simp⟩
    have h0 : hasKey ([] : List (String × CatAgg)) p.1 = false := rfl
    rw [hk, h0] at this
    simpa using this.symm

/-- **C5.** The mistake-frequency list contains exactly the catalog
mistakes tagged on at least one trade (zero-occurrence mistakes excluded),
is sorted descending by occurrence count with ties kept in the original
enumeration order (its output coincides, after dropping positions, with the
sort of the position-annotated list under the strict
greater-count-then-earlier-position order), and the emitted slice has at
most `N` entries (`N = 10` for the scheduled command, `N = 5` for the
ad-hoc script — both instances of the same parameter). -/
theorem mistake_frequency_spec (trades : List Trade) (catalog : List Mistake)
    (topN : ℕ) :
    (∀ s ∈ (mistake_frequency_analysis trades catalog topN).sorted_stats,
      1 ≤ s.frequency) ∧
    (∀ m ∈ catalog,
      0 < (trades.filter (fun t => t.mistakes.contains m)).length →
      mkMistakeStat trades m ∈
        (mistake_frequency_analysis trades catalog topN).sorted_stats) ∧
    (∀ m ∈ catalog,
      (trades.filter (fun t => t.mistakes.contains m)).length = 0 →
      mkMistakeStat trades m ∉
        (mistake_frequency_analysis trades catalog topN).sorted_stats) ∧
    (∀ s ∈ (mistake_frequency_analysis trades catalog topN).sorted_stats,
      ∃ m ∈ catalog, s = mkMistakeStat trades m) ∧
    (mistake_frequency_analysis trades catalog topN).sorted_stats.Sorted
      (keyGE (fun s => s.frequency)) ∧
    (mistake_frequency_analysis trades catalog topN).sorted_stats =
      (List.insertionSort (lexRel (fun s => s.frequency))
        (mistake_stats_unsorted trades catalog).enum).map Prod.snd ∧
    (mistake_frequency_analysis trades catalog topN).top =
      (mistake_frequency_analysis trades catalog topN).sorted_stats.take topN ∧
    (mistake_frequency_analysis trades catalog topN).top.length ≤ topN := by
  have hss : (mistake_frequency_analysis trades catalog topN).sorted_stats
      = sortDescBy (fun s => s.frequency)
          (mistake_stats_unsorted trades catalog) := rfl
  refine ⟨?_, ?_, ?_, ?_, ?_, ?_, rfl, ?_⟩
  · intro s hs
    rw [hss, mem_sortDescBy] at hs
    exact frequency_pos_of_mem_stats trades catalog s hs
  · intro m hm h
    rw [hss, mem_sortDescBy]
    exact (mem_mistake_stats_iff trades catalog _).mpr ⟨m, hm, h, rfl⟩
  · intro m hm h hmem
    rw [hss, mem_sortDescBy] at hmem
    have h1 := frequency_pos_of_mem_stats trades catalog _ hmem
    have h2 : (mkMistakeStat trades m).frequency
        = (trades.filter (fun t => t.mistakes.contains m)).length := rfl
    omega
  · intro s hs
    rw [hss, mem_sortDescBy, mem_mistake_stats_iff] at hs
    obtain ⟨m, hm, _, he⟩ := hs
    exact ⟨m, hm, he⟩
  · rw [hss]
    exact List.sorted_insertionSort _ _
  · rw [hss]
    exact sortDescBy_stable _ _
  · have ht : (mistake_frequency_analysis trades catalog topN).top
      = (mistake_frequency_analysis trades catalog topN).sorted_stats.take
          topN := rfl
    rw [ht, List.length_take]
    exact min_le_left _ _

/-- Witness for C5: the FOMO mistake is tagged on two sample trades and its
stat is in the report's list. -/
theorem mistake_frequency_spec_witness :
    mkMistakeStat tradesSample mPsy ∈
      (mistake_frequency_analysis tradesSample catalogSample 10).sorted_stats :=
  (mistake_frequency_spec tradesSample catalogSample 10).2.1 mPsy (by decide)
    (by decide)

/-- **C6.** Each per-category roll-up entry's count and total P&L are the
sums of the listed (emitted) mistakes' counts and total P&Ls over its
category, its average equals `total_pnl / total_count`, and the roll-up is
sorted descending by occurrence count. -/
theorem category_rollup_spec (trades : List Trade) (catalog : List Mistake)
    (topN : ℕ) :
    (∀ e ∈ (mistake_frequency_analysis trades catalog topN).by_category,
      e.count = groupFreqSum
        (mistake_frequency_analysis trades catalog topN).sorted_stats
        e.category ∧
      e.total_pnl = groupPnlSum
        (mistake_frequency_analysis trades catalog topN).sorted_stats
        e.category ∧
      e.avg_pnl = e.total_pnl / (e.count : ℚ)) ∧
    (mistake_frequency_analysis trades catalog topN).by_category.Sorted
      (keyGE (fun e => e.count)) := by
  have hbc : (mistake_frequency_analysis trades catalog topN).by_category
      = (sortDescBy (fun p => p.2.count)
          (category_stats
            (mistake_frequency_analysis trades catalog topN).sorted_stats)).map
        (fun p => CategoryStat.mk p.1 p.2.count p.2.total_pnl
          (if 0 < p.2.count then p.2.total_pnl / (p.2.count : ℚ) else 0)) := rfl
  constructor
  · intro e he
    rw [hbc, List.mem_map] at he
    obtain ⟨p, hp, rfl⟩ := he
    rw [mem_sortDescBy] at hp
    obtain ⟨hc1, hc2, _⟩ := mem_category_stats_spec _ p hp
    refine ⟨hc1, hc2, ?_⟩
    show (if 0 < p.2.count then p.2.total_pnl / (p.2.count : ℚ) else 0)
      = p.2.total_pnl / (p.2.count : ℚ)
    by_cases h : 0 < p.2.count
    · rw [if_pos h]
    · rw [if_neg h]
      have h0 : p.2.count = 0 := by omega
      rw [h0]
      simp
  · rw [hbc]
    exact List.Pairwise.map _ (fun a b h => h)
      (List.sorted_insertionSort (keyGE (fun p : String × CatAgg => p.2.count)) _)

/-- Witness for C6: the sample roll-up's Entry Timing line has count equal
to the summed frequency of its constituent mistakes. -/
theorem category_rollup_spec_witness :
    (CategoryStat.mk "Entry Timing" 2 50 25).count =
      groupFreqSum
        (mistake_frequency_analysis tradesSample catalogSample 10).sorted_stats
        "Entry Timing" := by
  have hmem : CategoryStat.mk "Entry Timing" 2 50 25 ∈
      (mistake_frequency_analysis tradesSample catalogSample 10).by_category := by
    norm_num +decide [mistake_frequency_analysis, mistake_stats_unsorted,
      mkMistakeStat, sortDescBy, category_rollup, category_stats, addStat,
      bumpCat, keyGE, tradesSample, catalogSample, mPsy, mEntry, mRisk, wBuy,
      wLoss, wOpen, isClosedTrade, pnlOr0, Trade.pnl, List.insertionSort,
      List.orderedInsert, get_category_display]
  exact ((category_rollup_spec tradesSample catalogSample 10).1 _ hmem).1

/-- **C10.** Every emitted mistake entry has occurrence count at least `1`,
hence every category roll-up entry has positive count and the
zero-denominator fallback of the per-category average is unreachable: the
average is always the real quotient `total_pnl / total_count`. -/
theorem rollup_counts_positive (trades : List Trade) (catalog : List Mistake)
    (topN : ℕ) :
    (∀ s ∈ (mistake_frequency_analysis trades catalog topN).sorted_stats,
      1 ≤ s.frequency) ∧
    (∀ e ∈ (mistake_frequency_analysis trades catalog topN).by_category,
      0 < e.count ∧ e.avg_pnl = e.total_pnl / (e.count : ℚ)) := by
  have hfreq : ∀ s ∈ (mistake_frequency_analysis trades catalog topN).sorted_stats,
      1 ≤ s.frequency := by
    intro s hs
    rw [show (mistake_frequency_analysis trades catalog topN).sorted_stats
      = sortDescBy (fun s => s.frequency)
        (mistake_stats_unsorted trades catalog) from rfl,
      mem_sortDescBy] at hs
    exact frequency_pos_of_mem_stats trades catalog s hs
  refine ⟨hfreq, ?_⟩
  intro e he
  rw [show (mistake_frequency_analysis trades catalog topN).by_category
      = (sortDescBy (fun p => p.2.count)
          (category_stats
            (mistake_frequency_analysis trades catalog topN).sorted_stats)).map
        (fun p => CategoryStat.mk p.1 p.2.count p.2.total_pnl
          (if 0 < p.2.count then p.2.total_pnl / (p.2.count : ℚ) else 0))
      from rfl, List.mem_map] at he
  obtain ⟨p, hp, rfl⟩ := he
  rw [mem_sortDescBy] at hp
  obtain ⟨hc1, _, hany⟩ := mem_category_stats_spec _ p hp
  rw [List.any_eq_true] at hany
  obtain ⟨s, hsmem, hscat⟩ := hany
  have hs1 : 1 ≤ s.frequency := hfreq s hsmem
  have hsum : s.frequency ≤
      groupFreqSum
        (mistake_frequency_analysis trades catalog topN).sorted_stats p.1 := by
    unfold groupFreqSum
    apply List.le_sum_of_mem
    exact List.mem_map.mpr ⟨s, List.mem_filter.mpr ⟨hsmem, hscat⟩, rfl⟩
  have hpos : 0 < p.2.count := by
    rw [hc1]
    omega
  refine ⟨hpos, ?_⟩
  show (if 0 < p.2.count then p.2.total_pnl / (p.2.count : ℚ) else 0)
    = p.2.total_pnl / (p.2.count : ℚ)
  rw [if_pos hpos]

/-- Witness for C10: the sample Psychology/Emotion roll-up line has
positive count and quotient average. -/
theorem rollup_counts_positive_witness :
    0 < (CategoryStat.mk "Psychology/Emotion" 2 20 10).count ∧
    (CategoryStat.mk "Psychology/Emotion" 2 20 10).avg_pnl =
      (CategoryStat.mk "Psychology/Emotion" 2 20 10).total_pnl /
        ((CategoryStat.mk "Psychology/Emotion" 2 20 10).count : ℚ) := by
  have hmem : CategoryStat.mk "Psychology/Emotion" 2 20 10 ∈
      (mistake_frequency_analysis tradesSample catalogSample 10).by_category := by
    norm_num +decide [mistake_frequency_analysis, mistake_stats_unsorted,
      mkMistakeStat, sortDescBy, category_rollup, category_stats, addStat,
      bumpCat, keyGE, tradesSample, catalogSample, mPsy, mEntry, mRisk, wBuy,
      wLoss, wOpen, isClosedTrade, pnlOr0, Trade.pnl, List.insertionSort,
      List.orderedInsert, get_category_display]
  exact (rollup_counts_positive tradesSample catalogSample 10).2 _ hmem

